import Mathlib

/-!
Verification of the instant-runoff voting engine in `irv.py`.

The Python source stores a vote table as a list of ballots (rows), a list of
candidate names, and a derived list of per-candidate count vectors.  All
integer arithmetic in the source is Python-2 integer arithmetic (the script
uses `string.ljust` and evaluated `input`, both Python-2-only), so `/` on
integers is floor division and `None` compares below every integer; both are
mirrored here (`Nat` division, and `cmpOpt` putting `none` first).

Ballot entries are `Option Nat`: `none` is an abstention, `some r` a rank.
-/

namespace IRV

/-- Three-way comparison on `Nat`, mirroring Python integer comparison. -/
def cmpNat (a b : Nat) : Ordering :=
  if a < b then .lt else if b < a then .gt else .eq

/-- Three-way comparison on optional ranks.  Python 2 orders `None` strictly
below every integer, which is the semantics the script relies on when the
joint sort in `update_counts` compares ballot columns. -/
def cmpOpt : Option Nat → Option Nat → Ordering
  | none, none => .eq
  | none, some _ => .lt
  | some _, none => .gt
  | some a, some b => cmpNat a b

/-- Lexicographic comparison of lists (Python list comparison: elementwise,
a strict prefix is smaller). -/
def cmpList (c : α → α → Ordering) : List α → List α → Ordering
  | [], [] => .eq
  | [], _ :: _ => .lt
  | _ :: _, [] => .gt
  | a :: as, b :: bs =>
    match c a b with
    | .eq => cmpList c as bs
    | o => o

/-- Character comparison by code point, as Python compares strings. -/
def cmpChar (a b : Char) : Ordering := cmpNat a.toNat b.toNat

/-- String comparison, lexicographic on the character data. -/
def cmpStr (a b : String) : Ordering := cmpList cmpChar a.data b.data

/-- Pair comparison: first component, then second (Python tuple order). -/
def cmpProd (c₁ : α → α → Ordering) (c₂ : β → β → Ordering)
    (a b : α × β) : Ordering :=
  match c₁ a.1 b.1 with
  | .eq => c₂ a.2 b.2
  | o => o

/-- A lawful comparator: reflects equality, is antisymmetric under `swap`,
and has transitive strict-less. -/
structure LawfulCmp (c : α → α → Ordering) : Prop where
  eq_iff : ∀ a b, c a b = .eq ↔ a = b
  swap : ∀ a b, c a b = (c b a).swap
  lt_trans : ∀ a b d, c a b = .lt → c b d = .lt → c a d = .lt

/-- The non-strict relation induced by a comparator (Python `<=` on the
compared values). -/
def cmpLE (c : α → α → Ordering) (a b : α) : Prop := c a b ≠ .gt

instance {c : α → α → Ordering} : DecidableRel (cmpLE c) := fun a b => by
  unfold cmpLE; infer_instance

/-- The triple sorted by `update_counts`: count vector, ballot column,
candidate name (in the tuple order Python compares them). -/
abbrev Triple := List Nat × List (Option Nat) × String

/-- Comparator for the sorted triples, exactly Python tuple comparison. -/
def cmpTriple : Triple → Triple → Ordering :=
  cmpProd (cmpList cmpNat) (cmpProd (cmpList cmpOpt) cmpStr)

/-- Non-strict order on triples used for the joint sort. -/
def tripleLE : Triple → Triple → Prop := cmpLE cmpTriple

instance : DecidableRel tripleLE := fun a b => by
  unfold tripleLE; infer_instance

/-- Comparator for the `(value, index)` pairs sorted by `get_rank_order`. -/
def cmpPair : Nat × Nat → Nat × Nat → Ordering := cmpProd cmpNat cmpNat

/-- Non-strict order on `(value, index)` pairs. -/
def pairLE : Nat × Nat → Nat × Nat → Prop := cmpLE cmpPair

instance : DecidableRel pairLE := fun a b => by
  unfold pairLE; infer_instance

/-- A ballot: one optional rank per candidate, positionally aligned with the
candidate-name list. -/
abbrev Ballot := List (Option Nat)

/-- Length of the shortest row; `zip(*rows)` truncates to this. -/
def minLen : List Ballot → Nat
  | [] => 0
  | [r] => r.length
  | r :: rs => min r.length (minLen rs)

/-- Transpose in the sense of Python `zip(*item)` (the script's `p3zip`):
produces one row per index below the shortest input row's length; `zip()`
of no arguments is empty. -/
def p3zip (l : List Ballot) : List Ballot :=
  match l with
  | [] => []
  | _ :: _ => (List.range (minLen l)).map fun i => l.map fun r => r.getD i none

/-- The `(value, index)` pairs of the non-abstaining entries of a ballot
(the generator expression inside `get_rank_order`). -/
def groIndexed (l : Ballot) : List (Nat × Nat) :=
  l.enum.filterMap fun p => p.2.map fun v => (v, p.1)

/-- The list `indices` of `get_rank_order`: positions of the non-abstaining
entries, ordered by ascending `(value, index)` pair.  (The source's second
`if v is not None` filter is vacuous, as the pair values are integers;
`insertionSort` agrees with Python's stable `sorted` because the pairs have
pairwise distinct indices.) -/
def groIndices (l : Ballot) : List Nat :=
  ((groIndexed l).insertionSort pairLE).map Prod.snd

/-- The script's `get_rank_order`: collect the non-abstaining `(value, index)`
pairs, sort them (Python tuple order), and reassign ranks `1..k` in that
order; abstentions stay `none`. -/
def get_rank_order (l : Ballot) : Ballot :=
  (List.range l.length).map fun j =>
    if j ∈ groIndices l then some ((groIndices l).indexOf j + 1) else none

/-- Histogram of a candidate's column over ranks `1..n`
(`update_counts`' per-candidate `counter`, read off in key order; the
source's `counter[vote] += 1` assumes every normalized rank lies in `1..n`,
which alignment of ballots with the name list guarantees). -/
def countsFor (n : Nat) (col : Ballot) : List Nat :=
  (List.range n).map fun i => col.count (some (i + 1))

/-- The script's `VoteTable` instance state: ballots (by voter), names,
derived counts, and the two sizes set by `maintain`. -/
structure VoteTable where
  votes : List Ballot
  names : List String
  counts : List (List Nat)
  N_votes : Nat
  N_candidates : Nat
deriving Repr, DecidableEq

/-- The body of `VoteTable.update_counts`: recompute the per-candidate
histograms, then jointly sort (count vector, ballot column, name) triples in
Python tuple order and store the three projections; ballots are stored back
by voter via the double transpose.  `insertionSort` agrees with Python's
stable `sorted` here because `cmpTriple` reflects equality, so elements that
compare equal are literally equal. -/
def update_counts (nCand : Nat) (votes : List Ballot) (names : List String) :
    List (List Nat) × List Ballot × List String :=
  let vbc := p3zip votes
  let counts := (names.zip vbc).map fun p => countsFor nCand p.2
  let triples : List Triple := counts.zip (vbc.zip names)
  let sorted := triples.insertionSort tripleLE
  (sorted.map (fun t => t.1), p3zip (sorted.map fun t => t.2.1),
    sorted.map fun t => t.2.2)

/-- The script's `VoteTable.maintain` as run from `__init__`: record the
sizes, re-normalize every ballot (`reduce_ranks`), then rebuild counts and
the joint sort (`update_counts`).  `N_candidates` is the length of the name
list before the re-sort, exactly as in the source. -/
def maintain (votes : List Ballot) (names : List String) : VoteTable :=
  let nV := votes.length
  let nC := names.length
  let votes' := votes.map get_rank_order
  let res := update_counts nC votes' names
  ⟨res.2.1, res.2.2, res.1, nV, nC⟩

/-- Construction, `VoteTable(votes, names)`: it immediately maintains. -/
def voteTable (votes : List Ballot) (names : List String) : VoteTable :=
  maintain votes names

/-- Copying, `VoteTable.copy`: constructs a fresh table from the stored ballots and
names (which re-runs `maintain`). -/
def VoteTable.copy (t : VoteTable) : VoteTable :=
  voteTable t.votes t.names

/-- Majority test, `VoteTable.compute_winner`: the strongest candidate (last in sorted
order) wins iff its first-place count exceeds half the ballot count
(Python-2 floor division, as in the source).  Out-of-range accesses
(`counts[-1][0]` on a candidate-less table) cannot satisfy the guard and
yield `none`; such tables are never built by the script. -/
def VoteTable.compute_winner (t : VoteTable) : Option String :=
  if t.N_votes / 2 < (t.counts.getLastD []).headD 0 then t.names.getLast?
  else none

/-- Tie test, `VoteTable.check_tied`: the two strongest count vectors are compared for
equality and the strongest vector for being nonzero.  `counts[-2]` raises
`IndexError` when fewer than two count rows exist; that failure is the
`none` result. -/
def VoteTable.check_tied (t : VoteTable) : Option Bool :=
  match t.counts.reverse with
  | c1 :: c2 :: _ => some (decide (c1 = c2) && decide (0 < c1.sum))
  | _ => none

/-- Elimination, `VoteTable.with_candidate_eliminated`: drop the candidate's column (a
`[:index] + [index+1:]` slice of the transposed view) and its name, and
build a fresh, fully maintained table.  The receiver is not modified (value
semantics here; the source also builds only fresh lists). -/
def VoteTable.with_candidate_eliminated (t : VoteTable) (index : Nat) :
    VoteTable :=
  let votes := p3zip t.votes
  voteTable (p3zip (votes.take index ++ votes.drop (index + 1)))
    (t.names.take index ++ t.names.drop (index + 1))

/-- One run of the inner `while True` loop of `instant_runoff` in automated
mode, with an explicit iteration budget (`fuel`) and the externally supplied
tie-break choice (`choose`, the `input` prompt on an unbreakable tie).
Returns the table as it stands when the loop breaks, the determined name
(`winner`, or the `unlucky_soul` when `ineligibility_found`), and the
ineligibility flag; `none` models a run that fails (fuel exhausted, or an
exception in the source such as `check_tied` on a malformed table). -/
def resolveRound (choose : VoteTable → Nat) :
    Nat → VoteTable → Option (VoteTable × String × Bool)
  | 0, _ => none
  | fuel + 1, t =>
    match t.compute_winner with
    | some w => some (t, w, false)
    | none =>
      if t.N_candidates = 1 then
        match t.names with
        | [u] => some (t, u, true)
        | _ => none
      else
        match t.check_tied with
        | none => none
        | some tied =>
          resolveRound choose fuel
            (t.with_candidate_eliminated (if tied then choose t else 0))

/-- The `for rank in range(N)` loop of `instant_runoff`, counting down the
remaining rounds.  Each round snapshots `full_table = table.copy()`, runs
the inner loop on the live table, appends the determined name to the ranking
or the ineligible list, and (except after the last round) rebuilds the next
table by eliminating the determined name from the snapshot — discarding the
reduced table the inner loop ended on, exactly as the source reassigns
`table` from `full_table`. -/
def irvRounds (choose : VoteTable → Nat) (fuel : Nat) :
    Nat → VoteTable → Option (List String × List String)
  | 0, _ => some ([], [])
  | k + 1, t =>
    match resolveRound choose fuel t with
    | none => none
    | some (_reduced, w, inel) =>
      let cont :=
        if k = 0 then some ([], [])
        else
          let full := t.copy
          irvRounds choose fuel k
            (full.with_candidate_eliminated (full.names.indexOf w))
      match cont with
      | none => none
      | some (rk, il) =>
        some (if inel then rk else w :: rk, if inel then w :: il else il)

/-- The automated run, `instant_runoff(name, table, True)`: `N_candidates` rounds; the inner
loop needs at most `N_candidates` iterations per round (proved below), which
is the budget passed here. -/
def instant_runoff (choose : VoteTable → Nat) (t : VoteTable) :
    Option (List String × List String) :=
  irvRounds choose t.N_candidates t.N_candidates t

/-- A list of rows is rectangular with row length `n`. -/
def Rect (l : List Ballot) (n : Nat) : Prop := ∀ r ∈ l, r.length = n

instance {l : List Ballot} {n : Nat} : Decidable (Rect l n) := by
  unfold Rect; infer_instance

/-- Valid input for one contest, as the spec's external-interface section
describes it: at least one ballot, at least one (distinct) candidate name,
every ballot aligned with the name list, and no duplicate non-abstaining
rank inside any single ballot. -/
def ValidInput (votes : List Ballot) (names : List String) : Prop :=
  votes ≠ [] ∧ names ≠ [] ∧ Rect votes names.length ∧ names.Nodup ∧
    ∀ r ∈ votes, (r.filterMap id).Nodup

instance {votes : List Ballot} {names : List String} :
    Decidable (ValidInput votes names) := by
  unfold ValidInput; infer_instance

/-- The structural invariants a table enjoys after `maintain` ran on
well-formed input, and which every operation of the engine preserves. -/
structure TableOK (t : VoteTable) : Prop where
  votes_ne : t.votes ≠ []
  nvotes : t.N_votes = t.votes.length
  ncand : t.N_candidates = t.names.length
  ncand_pos : 1 ≤ t.N_candidates
  rect : Rect t.votes t.N_candidates
  counts_len : t.counts.length = t.N_candidates
  nodup : t.names.Nodup

/-- A valid external tie-break choice: when prompted (which only happens with
at least two candidates), the supplied index denotes an actual candidate. -/
def ChooseOK (choose : VoteTable → Nat) : Prop :=
  ∀ t, TableOK t → 2 ≤ t.N_candidates → choose t < t.N_candidates

/-- The order the claim C3 asserts: candidates sorted by count vector with
ties broken by name ascending (formalized as pairwise non-descending
(count vector, name) pairs). -/
def countsNameLE (a b : List Nat × String) : Prop :=
  cmpProd (cmpList cmpNat) cmpStr a b ≠ .gt

instance : DecidableRel countsNameLE := fun a b => by
  unfold countsNameLE
  infer_instance

/-- The claim-C3 predicate on a table. -/
def countsNameSorted (t : VoteTable) : Prop :=
  List.Pairwise countsNameLE (t.counts.zip t.names)

instance {t : VoteTable} : Decidable (countsNameSorted t) := by
  unfold countsNameSorted
  exact List.instDecidablePairwise _

/-- C2 contrast table: five ballots over "A", "B", "C" with first-place
counts A:2, B:2, C:1.  Round 0 finds no immediate majority, eliminates the
weakest ("C", index 0), and then "A" wins 3 of 5; so the winner is found on
a REDUCED table from which "C" is already gone. -/
def exC2 : VoteTable :=
  voteTable
    [[some 1, some 2, some 3], [some 1, some 2, some 3],
     [some 2, some 1, some 3], [some 2, some 1, some 3],
     [some 2, some 3, some 1]]
    ["A", "B", "C"]

/-- The table for the C4 counterexample: four ballots over "A", "B", "C";
"A" and "B" each get one first-place vote (the two weakest, with identical
nonzero count vectors `[1,0,0]`), "C" gets two (no majority: `2*2 = 4`). -/
def exC4 : VoteTable :=
  voteTable
    [[some 1, none, none], [none, some 1, none],
     [none, none, some 1], [none, none, some 1]]
    ["A", "B", "C"]

/-- C7 counterexample table: nine full ballots over "A", "B", "C" with
first-place counts A:2, B:3, C:4, so the sorted order is A, B, C.  After
eliminating "A" (index 0), its four supporters transfer to "B", which
becomes strongest: the rebuilt order is C, B. -/
def exC7 : VoteTable :=
  voteTable
    [[some 2, some 3, some 1], [some 2, some 3, some 1],
     [some 2, some 3, some 1], [some 2, some 3, some 1],
     [some 2, some 1, some 3], [some 2, some 1, some 3],
     [some 2, some 1, some 3],
     [some 1, some 2, some 3], [some 1, some 2, some 3]]
    ["A", "B", "C"]

theorem cmpNat_eq_lt {a b : Nat} : cmpNat a b = .lt ↔ a < b := by
  unfold cmpNat
  rcases Nat.lt_trichotomy a b with h | h | h <;>
    simp [h, Nat.lt_asymm, Nat.lt_irrefl]

theorem cmpNat_eq_gt {a b : Nat} : cmpNat a b = .gt ↔ b < a := by
  unfold cmpNat
  rcases Nat.lt_trichotomy a b with h | h | h <;>
    simp [h, Nat.lt_asymm, Nat.lt_irrefl]

theorem cmpNat_eq_eq {a b : Nat} : cmpNat a b = .eq ↔ a = b := by
  unfold cmpNat
  rcases Nat.lt_trichotomy a b with h | h | h <;>
    simp [h, Nat.lt_asymm, Nat.lt_irrefl] <;> omega

theorem lawful_cmpNat : LawfulCmp cmpNat := by
  refine ⟨fun a b => cmpNat_eq_eq, fun a b => ?_, fun a b d hab hbd => ?_⟩
  · rcases h : cmpNat b a with h' | h' | h'
    · rw [show cmpNat a b = .gt from cmpNat_eq_gt.mpr (cmpNat_eq_lt.mp h)]
      rfl
    · rw [show cmpNat a b = .eq from cmpNat_eq_eq.mpr (cmpNat_eq_eq.mp h).symm]
      rfl
    · rw [show cmpNat a b = .lt from cmpNat_eq_lt.mpr (cmpNat_eq_gt.mp h)]
      rfl
  · exact cmpNat_eq_lt.mpr (Nat.lt_trans (cmpNat_eq_lt.mp hab) (cmpNat_eq_lt.mp hbd))

theorem lawful_cmpOpt : LawfulCmp cmpOpt := by
  refine ⟨?_, ?_, ?_⟩
  · intro a b
    cases a <;> cases b <;> simp [cmpOpt, cmpNat_eq_eq]
  · intro a b
    cases a <;> cases b <;> simp only [cmpOpt] <;>
      first
        | rfl
        | exact lawful_cmpNat.swap _ _
  · intro a b d hab hbd
    cases a <;> cases b <;> cases d <;> simp only [cmpOpt] at hab hbd ⊢ <;>
      first
        | rfl
        | exact lawful_cmpNat.lt_trans _ _ _ hab hbd
        | simp_all

theorem cmpList_eq_eq (hc : LawfulCmp c) : ∀ a b, cmpList c a b = .eq ↔ a = b
  | [], [] => by simp [cmpList]
  | [], _ :: _ => by simp [cmpList]
  | _ :: _, [] => by simp [cmpList]
  | x :: xs, y :: ys => by
    simp only [cmpList]
    rcases h : c x y with _ | _ | _
    · constructor
      · intro habs; cases habs
      · intro heq
        cases heq
        rw [(hc.eq_iff x x).mpr rfl] at h
        cases h
    · rw [(hc.eq_iff x y).mp h]
      simp [cmpList_eq_eq hc xs ys]
    · constructor
      · intro habs; cases habs
      · intro heq
        cases heq
        rw [(hc.eq_iff x x).mpr rfl] at h
        cases h

theorem cmpList_swap (hc : LawfulCmp c) : ∀ a b, cmpList c a b = (cmpList c b a).swap
  | [], [] => rfl
  | [], _ :: _ => rfl
  | _ :: _, [] => rfl
  | x :: xs, y :: ys => by
    simp only [cmpList]
    rw [hc.swap x y]
    rcases h : c y x with _ | _ | _ <;> simp [Ordering.swap, cmpList_swap hc xs ys]

theorem cmpList_lt_trans (hc : LawfulCmp c) :
    ∀ a b d, cmpList c a b = .lt → cmpList c b d = .lt → cmpList c a d = .lt
  | [], [], _, hab, _ => by cases hab
  | _ :: _, [], _, hab, _ => by simp [cmpList] at hab
  | [], _ :: _, [], _, hbd => by simp [cmpList] at hbd
  | [], _ :: _, _ :: _, _, _ => rfl
  | _ :: _, _ :: _, [], _, hbd => by simp [cmpList] at hbd
  | x :: xs, y :: ys, z :: zs, hab, hbd => by
    simp only [cmpList] at hab hbd ⊢
    rcases hxy : c x y with _ | _ | _ <;> rw [hxy] at hab <;>
        rcases hyz : c y z with _ | _ | _ <;> rw [hyz] at hbd
    · rw [hc.lt_trans x y z hxy hyz]
    · have hxz : c x z = .lt := by rw [← (hc.eq_iff y z).mp hyz]; exact hxy
      rw [hxz]
    · exact absurd hbd (by simp)
    · have hxz : c x z = .lt := by rw [(hc.eq_iff x y).mp hxy]; exact hyz
      rw [hxz]
    · rw [show c x z = .eq from (hc.eq_iff x z).mpr
        (((hc.eq_iff x y).mp hxy).trans ((hc.eq_iff y z).mp hyz))]
      exact cmpList_lt_trans hc xs ys zs hab hbd
    · exact absurd hbd (by simp)
    · exact absurd hab (by simp)
    · exact absurd hab (by simp)
    · exact absurd hab (by simp)

theorem lawful_cmpList (hc : LawfulCmp c) : LawfulCmp (cmpList c) :=
  ⟨cmpList_eq_eq hc, cmpList_swap hc, cmpList_lt_trans hc⟩

theorem lawful_cmpChar : LawfulCmp cmpChar := by
  refine ⟨?_, ?_, ?_⟩
  · intro a b
    unfold cmpChar
    rw [cmpNat_eq_eq]
    constructor
    · intro h
      have := congrArg Char.ofNat h
      rwa [Char.ofNat_toNat, Char.ofNat_toNat] at this
    · intro h; rw [h]
  · intro a b; exact lawful_cmpNat.swap _ _
  · intro a b d hab hbd; exact lawful_cmpNat.lt_trans _ _ _ hab hbd

theorem lawful_cmpStr : LawfulCmp cmpStr := by
  refine ⟨?_, ?_, ?_⟩
  · intro a b
    unfold cmpStr
    rw [(lawful_cmpList lawful_cmpChar).eq_iff]
    exact ⟨fun h => String.ext h, fun h => by rw [h]⟩
  · intro a b; exact (lawful_cmpList lawful_cmpChar).swap _ _
  · intro a b d hab hbd; exact (lawful_cmpList lawful_cmpChar).lt_trans _ _ _ hab hbd

theorem lawful_cmpProd (h₁ : LawfulCmp c₁) (h₂ : LawfulCmp c₂) :
    LawfulCmp (cmpProd c₁ c₂) := by
  refine ⟨?_, ?_, ?_⟩
  · rintro ⟨a1, a2⟩ ⟨b1, b2⟩
    simp only [cmpProd]
    rcases h : c₁ a1 b1 with _ | _ | _
    · constructor
      · intro habs; cases habs
      · intro heq
        cases heq
        rw [(h₁.eq_iff a1 a1).mpr rfl] at h
        cases h
    · rw [(h₁.eq_iff a1 b1).mp h]
      simp [h₂.eq_iff]
    · constructor
      · intro habs; cases habs
      · intro heq
        cases heq
        rw [(h₁.eq_iff a1 a1).mpr rfl] at h
        cases h
  · rintro ⟨a1, a2⟩ ⟨b1, b2⟩
    simp only [cmpProd]
    rw [h₁.swap a1 b1]
    rcases h : c₁ b1 a1 with _ | _ | _ <;> simp [Ordering.swap, h₂.swap a2 b2]
  · rintro ⟨a1, a2⟩ ⟨b1, b2⟩ ⟨d1, d2⟩ hab hbd
    simp only [cmpProd] at hab hbd ⊢
    rcases hxy : c₁ a1 b1 with _ | _ | _ <;> rw [hxy] at hab <;>
        rcases hyz : c₁ b1 d1 with _ | _ | _ <;> rw [hyz] at hbd
    · rw [h₁.lt_trans a1 b1 d1 hxy hyz]
    · have hxz : c₁ a1 d1 = .lt := by rw [← (h₁.eq_iff b1 d1).mp hyz]; exact hxy
      rw [hxz]
    · exact absurd hbd (by simp)
    · have hxz : c₁ a1 d1 = .lt := by rw [(h₁.eq_iff a1 b1).mp hxy]; exact hyz
      rw [hxz]
    · rw [show c₁ a1 d1 = .eq from (h₁.eq_iff a1 d1).mpr
        (((h₁.eq_iff a1 b1).mp hxy).trans ((h₁.eq_iff b1 d1).mp hyz))]
      exact h₂.lt_trans a2 b2 d2 hab hbd
    · exact absurd hbd (by simp)
    · exact absurd hab (by simp)
    · exact absurd hab (by simp)
    · exact absurd hab (by simp)

theorem cmpLE_total {α : Type u} {c : α → α → Ordering} (hc : LawfulCmp c) (a b : α) :
    cmpLE c a b ∨ cmpLE c b a := by
  unfold cmpLE
  rcases h : c a b with _ | _ | _
  · left; simp
  · left; simp
  · right
    rw [hc.swap b a, h]
    simp [Ordering.swap]

theorem cmpLE_trans {α : Type u} {c : α → α → Ordering} (hc : LawfulCmp c) {a b d : α}
    (hab : cmpLE c a b) (hbd : cmpLE c b d) : cmpLE c a d := by
  unfold cmpLE at hab hbd ⊢
  rcases h1 : c a b with _ | _ | _
  · rcases h2 : c b d with _ | _ | _
    · rw [hc.lt_trans a b d h1 h2]; simp
    · rw [← (hc.eq_iff b d).mp h2, h1]
      simp
    · exact absurd h2 hbd
  · rw [(hc.eq_iff a b).mp h1]
    exact hbd
  · exact absurd h1 hab

theorem lawful_cmpTriple : LawfulCmp cmpTriple :=
  lawful_cmpProd (lawful_cmpList lawful_cmpNat)
    (lawful_cmpProd (lawful_cmpList lawful_cmpOpt) lawful_cmpStr)

instance : IsTotal Triple tripleLE := ⟨cmpLE_total lawful_cmpTriple⟩

instance : IsTrans Triple tripleLE := ⟨fun _ _ _ => cmpLE_trans lawful_cmpTriple⟩

theorem lawful_cmpPair : LawfulCmp cmpPair :=
  lawful_cmpProd lawful_cmpNat lawful_cmpNat

instance : IsTotal (Nat × Nat) pairLE := ⟨cmpLE_total lawful_cmpPair⟩

instance : IsTrans (Nat × Nat) pairLE := ⟨fun _ _ _ => cmpLE_trans lawful_cmpPair⟩

theorem minLen_eq {l : List Ballot} {n : Nat} (hne : l ≠ [])
    (h : Rect l n) : minLen l = n := by
  induction l with
  | nil => exact absurd rfl hne
  | cons r rs ih =>
    cases rs with
    | nil => simpa [minLen] using h r (by simp)
    | cons r2 rs2 =>
      have h1 : minLen (r :: r2 :: rs2) = min r.length (minLen (r2 :: rs2)) := by
        simp [minLen]
      rw [h1, h r (by simp), ih (by simp) fun x hx => h x (by simp [hx])]
      simp

theorem p3zip_of_ne_nil {l : List Ballot} (hne : l ≠ []) :
    p3zip l = (List.range (minLen l)).map fun i => l.map fun r => r.getD i none := by
  cases l with
  | nil => exact absurd rfl hne
  | cons r rs => rfl

theorem length_p3zip {l : List Ballot} (hne : l ≠ []) :
    (p3zip l).length = minLen l := by
  rw [p3zip_of_ne_nil hne]
  simp

theorem getElem_p3zip {l : List Ballot} (hne : l ≠ []) {i : Nat}
    (hi : i < (p3zip l).length) :
    (p3zip l)[i] = l.map fun r => r.getD i none := by
  rw [List.getElem_of_eq (p3zip_of_ne_nil hne) hi]
  simp

theorem mem_p3zip_length {l : List Ballot} {col : Ballot}
    (hc : col ∈ p3zip l) : col.length = l.length := by
  rcases l with _ | ⟨r, rs⟩
  · simp [p3zip] at hc
  · rw [p3zip_of_ne_nil (by simp)] at hc
    simp at hc
    obtain ⟨i, _, rfl⟩ := hc
    simp

theorem rect_p3zip {l : List Ballot} : Rect (p3zip l) l.length :=
  fun _ hc => mem_p3zip_length hc

theorem map_getD_range (r : Ballot) :
    ((List.range r.length).map fun i => r.getD i none) = r := by
  apply List.ext_getElem
  · simp
  · intro i h1 h2
    simp only [List.getElem_map, List.getElem_range]
    exact List.getD_eq_getElem r none (by simpa using h1)

theorem p3zip_p3zip {l : List Ballot} {n : Nat} (hne : l ≠ []) (hn : 0 < n)
    (h : Rect l n) : p3zip (p3zip l) = l := by
  have hml : minLen l = n := minLen_eq hne h
  have hlen : (p3zip l).length = n := by rw [length_p3zip hne, hml]
  have hne2 : p3zip l ≠ [] := by
    intro habs
    rw [habs] at hlen
    simp at hlen
    omega
  have hrect2 : Rect (p3zip l) l.length := rect_p3zip
  have hml2 : minLen (p3zip l) = l.length := minLen_eq hne2 hrect2
  apply List.ext_getElem
  · rw [length_p3zip hne2, hml2]
  · intro j h1 h2
    rw [getElem_p3zip hne2 h1]
    apply List.ext_getElem
    · simp [hlen, h _ (List.getElem_mem h2)]
    · intro i hi1 hi2
      simp only [List.getElem_map]
      have hip : i < (p3zip l).length := by simpa using hi1
      have hin : i < n := by rwa [hlen] at hip
      rw [getElem_p3zip hne hip,
        List.getD_eq_getElem (l.map fun r => r.getD i none) none (by simpa using h2)]
      simp only [List.getElem_map]
      exact List.getD_eq_getElem _ _ (by rw [h _ (List.getElem_mem h2)]; exact hin)

theorem mem_enum_iff {α : Type u} {x : Nat × α} {l : List α} :
    x ∈ l.enum ↔ l[x.1]? = some x.2 := by
  constructor
  · intro h
    obtain ⟨m, hm⟩ := List.mem_iff_getElem?.mp h
    rw [List.enum_eq_enumFrom, List.getElem?_enumFrom] at hm
    rcases hx : l[m]? with _ | a
    · rw [hx] at hm; cases hm
    · rw [hx] at hm
      simp only [Option.map_some', Option.some.injEq, Nat.zero_add] at hm
      rw [← hm]
      simpa using hx
  · intro h
    apply List.mem_iff_getElem?.mpr
    refine ⟨x.1, ?_⟩
    rw [List.enum_eq_enumFrom, List.getElem?_enumFrom, h]
    simp

theorem mem_groIndexed {l : Ballot} {v i : Nat} :
    (v, i) ∈ groIndexed l ↔ l[i]? = some (some v) := by
  unfold groIndexed
  rw [List.mem_filterMap]
  constructor
  · rintro ⟨⟨i₀, v₀⟩, hmem, hf⟩
    rcases v₀ with _ | v₀
    · cases hf
    · simp only [Option.map_some', Option.some.injEq, Prod.mk.injEq] at hf
      obtain ⟨rfl, rfl⟩ := hf
      exact mem_enum_iff.mp hmem
  · intro h
    exact ⟨(i, some v), mem_enum_iff.mpr h, rfl⟩

theorem snd_filterMap_sublist :
    ∀ L : List (Nat × Option Nat),
      List.Sublist ((L.filterMap fun p => p.2.map fun v => (v, p.1)).map Prod.snd)
        (L.map Prod.fst)
  | [] => List.Sublist.slnil
  | (i, none) :: T => by
    simp only [List.filterMap_cons, Option.map_none', List.map_cons]
    exact (snd_filterMap_sublist T).cons i
  | (i, some v) :: T => by
    simp only [List.filterMap_cons, Option.map_some', List.map_cons]
    exact (snd_filterMap_sublist T).cons₂ i

theorem nodup_groIndexed_snd (l : Ballot) : ((groIndexed l).map Prod.snd).Nodup := by
  have hsub := snd_filterMap_sublist l.enum
  exact (List.nodup_enum_map_fst l).sublist hsub

theorem filterMap_length_eq :
    ∀ L : List (Nat × Option Nat),
      (L.filterMap fun p => p.2.map fun v => (v, p.1)).length =
        ((L.map Prod.snd).filterMap id).length
  | [] => rfl
  | (i, none) :: T => by
    simp only [List.filterMap_cons, Option.map_none', List.map_cons, id]
    exact filterMap_length_eq T
  | (i, some v) :: T => by
    simp only [List.filterMap_cons, Option.map_some', List.map_cons, id,
      List.length_cons]
    rw [filterMap_length_eq T]

theorem length_groIndexed (l : Ballot) :
    (groIndexed l).length = (l.filterMap id).length := by
  unfold groIndexed
  rw [filterMap_length_eq l.enum]
  congr 1
  rw [List.enum_eq_enumFrom, List.enumFrom_map_snd]

theorem groIndices_perm (l : Ballot) :
    List.Perm (groIndices l) ((groIndexed l).map Prod.snd) :=
  (List.perm_insertionSort pairLE (groIndexed l)).map Prod.snd

theorem nodup_groIndices (l : Ballot) : (groIndices l).Nodup :=
  ((groIndices_perm l).nodup_iff).mpr (nodup_groIndexed_snd l)

theorem length_groIndices (l : Ballot) :
    (groIndices l).length = (l.filterMap id).length := by
  rw [(groIndices_perm l).length_eq, List.length_map, length_groIndexed]

theorem mem_groIndices {l : Ballot} {j : Nat} :
    j ∈ groIndices l ↔ ∃ v, l[j]? = some (some v) := by
  rw [(groIndices_perm l).mem_iff, List.mem_map]
  constructor
  · rintro ⟨⟨v, i⟩, hmem, rfl⟩
    exact ⟨v, mem_groIndexed.mp hmem⟩
  · rintro ⟨v, hv⟩
    exact ⟨(v, j), mem_groIndexed.mpr hv, rfl⟩

theorem mem_groIndices_lt {l : Ballot} {j : Nat} (h : j ∈ groIndices l) :
    j < l.length := by
  obtain ⟨v, hv⟩ := mem_groIndices.mp h
  obtain ⟨hlt, _⟩ := List.getElem?_eq_some_iff.mp hv
  exact hlt

theorem pairLE_not_of_lt {vi i vj j : Nat} (h : vi < vj) :
    ¬ pairLE (vj, j) (vi, i) := by
  intro habs
  apply habs
  show cmpPair (vj, j) (vi, i) = .gt
  unfold cmpPair cmpProd
  rw [show cmpNat (vj, j).1 (vi, i).1 = .gt from cmpNat_eq_gt.mpr h]

theorem idxOrder {vi i vj j : Nat} (hlt : vi < vj) :
    ∀ S : List (Nat × Nat), List.Sorted pairLE S → (S.map Prod.snd).Nodup →
      (vi, i) ∈ S → (vj, j) ∈ S →
      (S.map Prod.snd).indexOf i < (S.map Prod.snd).indexOf j := by
  intro S
  induction S with
  | nil =>
    intro _ _ hi _
    cases hi
  | cons a T ih =>
    intro hs hn hi hj
    rw [List.sorted_cons] at hs
    obtain ⟨ha, hs'⟩ := hs
    simp only [List.map_cons] at hn ⊢
    rw [List.nodup_cons] at hn
    obtain ⟨ha2, hn'⟩ := hn
    rcases List.mem_cons.mp hi with hia | hiT
    · rcases List.mem_cons.mp hj with hja | hjT
      · rw [← hia] at hja
        have hveq : vj = vi := congrArg Prod.fst hja
        exact absurd hlt (by rw [hveq]; exact Nat.lt_irrefl vi)
      · subst hia
        have hj2 : j ∈ T.map Prod.snd := List.mem_map.mpr ⟨(vj, j), hjT, rfl⟩
        have hij : i ≠ j := by
          intro habs
          apply ha2
          show i ∈ T.map Prod.snd
          rw [habs]
          exact hj2
        show List.indexOf i (i :: T.map Prod.snd) <
          List.indexOf j (i :: T.map Prod.snd)
        rw [List.indexOf_cons_self, List.indexOf_cons_ne _ hij]
        exact Nat.succ_pos _
    · rcases List.mem_cons.mp hj with hja | hjT
      · subst hja
        exact absurd (ha (vi, i) hiT) (pairLE_not_of_lt hlt)
      · have hi2 : i ∈ T.map Prod.snd := List.mem_map.mpr ⟨(vi, i), hiT, rfl⟩
        have hj2 : j ∈ T.map Prod.snd := List.mem_map.mpr ⟨(vj, j), hjT, rfl⟩
        have hia2 : a.2 ≠ i := fun habs => ha2 (habs ▸ hi2)
        have hja2 : a.2 ≠ j := fun habs => ha2 (habs ▸ hj2)
        rw [List.indexOf_cons_ne _ hia2, List.indexOf_cons_ne _ hja2]
        exact Nat.succ_lt_succ (ih hs' hn' hiT hjT)

theorem length_get_rank_order (l : Ballot) :
    (get_rank_order l).length = l.length := by
  unfold get_rank_order
  simp

theorem getElem?_get_rank_order {l : Ballot} {j : Nat} (h : j < l.length) :
    (get_rank_order l)[j]? =
      some (if j ∈ groIndices l then some ((groIndices l).indexOf j + 1)
        else none) := by
  unfold get_rank_order
  rw [List.getElem?_map, List.getElem?_range h]
  rfl

theorem get_rank_order_none_iff {l : Ballot} {j : Nat} (h : j < l.length) :
    (get_rank_order l)[j]? = some none ↔ l[j]? = some none := by
  rw [getElem?_get_rank_order h]
  rcases hx : l[j]? with _ | x
  · rw [List.getElem?_eq_getElem h] at hx
    cases hx
  · rcases x with _ | v
    · have : j ∉ groIndices l := by
        intro habs
        obtain ⟨v, hv⟩ := mem_groIndices.mp habs
        rw [hx] at hv
        cases hv
      simp [this]
    · have : j ∈ groIndices l := mem_groIndices.mpr ⟨v, hx⟩
      simp [this]

theorem filterMap_ite {L : List Nat} {P : Nat → Prop} [DecidablePred P]
    {h : Nat → Nat} :
    (L.filterMap fun j => if P j then some (h j) else none) =
      (L.filter fun j => decide (P j)).map h := by
  induction L with
  | nil => rfl
  | cons x xs ih =>
    by_cases hx : P x <;> simp [hx, ih, List.filter_cons]

theorem filter_range_perm_groIndices (l : Ballot) :
    List.Perm ((List.range l.length).filter fun j => decide (j ∈ groIndices l))
      (groIndices l) := by
  apply List.Subperm.antisymm
  · apply List.Nodup.subperm
    · exact (List.nodup_range l.length).filter _
    · intro j hj
      rw [List.mem_filter] at hj
      exact of_decide_eq_true hj.2
  · apply List.Nodup.subperm (nodup_groIndices l)
    intro j hj
    rw [List.mem_filter]
    exact ⟨List.mem_range.mpr (mem_groIndices_lt hj), decide_eq_true hj⟩

theorem map_indexOf_nodup {L : List Nat} (h : L.Nodup) :
    (L.map fun j => L.indexOf j) = List.range L.length := by
  apply List.ext_getElem
  · simp
  · intro i h1 h2
    simp only [List.getElem_map, List.getElem_range]
    exact List.indexOf_getElem h i (by simpa using h1)

theorem get_rank_order_ranks_perm (l : Ballot) :
    ((get_rank_order l).filterMap id).Perm
      ((List.range ((l.filterMap id).length)).map fun p => p + 1) := by
  unfold get_rank_order
  rw [List.filterMap_map]
  have heq : (id ∘ fun j =>
      if j ∈ groIndices l then some ((groIndices l).indexOf j + 1) else none) =
      fun j => if j ∈ groIndices l
        then some ((fun j => (groIndices l).indexOf j + 1) j) else none := rfl
  rw [heq, filterMap_ite]
  refine ((filter_range_perm_groIndices l).map _).trans ?_
  have : ((groIndices l).map fun j => (groIndices l).indexOf j + 1) =
      ((groIndices l).map fun j => (groIndices l).indexOf j).map fun p => p + 1 := by
    rw [List.map_map]
    rfl
  rw [this, map_indexOf_nodup (nodup_groIndices l), length_groIndices]

theorem get_rank_order_order_preserving {l : Ballot} {i j vi vj : Nat}
    (hi : l[i]? = some (some vi)) (hj : l[j]? = some (some vj))
    (hlt : vi < vj) :
    ∃ ri rj, (get_rank_order l)[i]? = some (some ri) ∧
      (get_rank_order l)[j]? = some (some rj) ∧ ri < rj := by
  have hiL : i < l.length := (List.getElem?_eq_some_iff.mp hi).1
  have hjL : j < l.length := (List.getElem?_eq_some_iff.mp hj).1
  have hiI : i ∈ groIndices l := mem_groIndices.mpr ⟨vi, hi⟩
  have hjI : j ∈ groIndices l := mem_groIndices.mpr ⟨vj, hj⟩
  have hsort : List.Sorted pairLE ((groIndexed l).insertionSort pairLE) :=
    List.sorted_insertionSort pairLE (groIndexed l)
  have hnod : (((groIndexed l).insertionSort pairLE).map Prod.snd).Nodup :=
    nodup_groIndices l
  have hmi : (vi, i) ∈ (groIndexed l).insertionSort pairLE :=
    (List.perm_insertionSort pairLE (groIndexed l)).mem_iff.mpr
      (mem_groIndexed.mpr hi)
  have hmj : (vj, j) ∈ (groIndexed l).insertionSort pairLE :=
    (List.perm_insertionSort pairLE (groIndexed l)).mem_iff.mpr
      (mem_groIndexed.mpr hj)
  have hidx := idxOrder hlt _ hsort hnod hmi hmj
  refine ⟨(groIndices l).indexOf i + 1, (groIndices l).indexOf j + 1, ?_, ?_, ?_⟩
  · rw [getElem?_get_rank_order hiL]
    simp [hiI]
  · rw [getElem?_get_rank_order hjL]
    simp [hjI]
  · exact Nat.succ_lt_succ hidx

theorem maintain_props {votes : List Ballot} {names : List String}
    (hv : votes ≠ []) (hn : names ≠ []) (hrect : Rect votes names.length)
    (hnd : names.Nodup) :
    TableOK (maintain votes names) ∧
    List.Perm (maintain votes names).names names ∧
    List.Pairwise tripleLE
      ((maintain votes names).counts.zip
        ((p3zip (maintain votes names).votes).zip (maintain votes names).names)) := by
  classical
  let votes' := votes.map get_rank_order
  let n := names.length
  let vbc := p3zip votes'
  let cnts := (names.zip vbc).map fun p => countsFor n p.2
  let triples : List Triple := cnts.zip (vbc.zip names)
  let sorted := triples.insertionSort tripleLE
  have hmv : (maintain votes names).votes = p3zip (sorted.map fun t => t.2.1) := rfl
  have hmn : (maintain votes names).names = sorted.map fun t => t.2.2 := rfl
  have hmc : (maintain votes names).counts = sorted.map fun t => t.1 := rfl
  have hmN : (maintain votes names).N_votes = votes.length := rfl
  have hmC : (maintain votes names).N_candidates = names.length := rfl
  have hn1 : 0 < n := List.length_pos.mpr hn
  have hm0 : 0 < votes.length := List.length_pos.mpr hv
  have hvne' : votes' ≠ [] := by
    simp only [votes', ne_eq, List.map_eq_nil_iff]
    exact hv
  have hlen' : votes'.length = votes.length := List.length_map votes get_rank_order
  have hrect' : Rect votes' n := by
    intro r hr
    simp only [votes', List.mem_map] at hr
    obtain ⟨r₀, hr₀, rfl⟩ := hr
    rw [length_get_rank_order]
    exact hrect r₀ hr₀
  have hminlen : minLen votes' = n := minLen_eq hvne' hrect'
  have hvbclen : vbc.length = n := by
    rw [show vbc = p3zip votes' from rfl, length_p3zip hvne', hminlen]
  have hvbcrect : Rect vbc votes.length := by
    intro c hc
    rw [← hlen']
    exact rect_p3zip c hc
  have hcntlen : cnts.length = n := by
    simp only [cnts, List.length_map, List.length_zip, hvbclen]
    exact Nat.min_self n
  have htriplen : triples.length = n := by
    simp only [triples, List.length_zip, hcntlen, hvbclen, List.length_zip]
    simp [Nat.min_self]
  have hperm : List.Perm sorted triples := List.perm_insertionSort _ _
  have hsortlen : sorted.length = n := by rw [hperm.length_eq, htriplen]
  have hmapsnd : triples.map Prod.snd = vbc.zip names := by
    apply List.map_snd_zip
    simp only [List.length_zip, hvbclen, hcntlen]
    simp [Nat.min_self]
  have hnames0 : triples.map (fun t => t.2.2) = names := by
    have h1 : triples.map (fun t => t.2.2) =
        (triples.map Prod.snd).map Prod.snd := by
      rw [List.map_map]
      rfl
    rw [h1, hmapsnd]
    apply List.map_snd_zip
    simp [hvbclen]
  have hcols0 : triples.map (fun t => t.2.1) = vbc := by
    have h1 : triples.map (fun t => t.2.1) =
        (triples.map Prod.snd).map Prod.fst := by
      rw [List.map_map]
      rfl
    rw [h1, hmapsnd]
    apply List.map_fst_zip
    simp [hvbclen]
  have hnamesperm : List.Perm (sorted.map fun t => t.2.2) names := by
    rw [← hnames0]
    exact hperm.map _
  have hcolsperm : List.Perm (sorted.map fun t => t.2.1) vbc := by
    rw [← hcols0]
    exact hperm.map _
  have hcolslen : (sorted.map fun t => t.2.1).length = n := by
    simp [hsortlen]
  have hcolsrect : Rect (sorted.map fun t => t.2.1) votes.length := by
    intro c hc
    exact hvbcrect c (hcolsperm.subset hc)
  have hcolsne : (sorted.map fun t => t.2.1) ≠ [] := by
    intro habs
    rw [habs] at hcolslen
    simp at hcolslen
    omega
  have hvotes2len : (p3zip (sorted.map fun t => t.2.1)).length = votes.length := by
    rw [length_p3zip hcolsne, minLen_eq hcolsne hcolsrect]
  have hvotes2rect : Rect (p3zip (sorted.map fun t => t.2.1)) n := by
    have h0 := rect_p3zip (l := sorted.map fun t => t.2.1)
    rw [hcolslen] at h0
    exact h0
  refine ⟨⟨?_, ?_, ?_, ?_, ?_, ?_, ?_⟩, ?_, ?_⟩
  · rw [hmv]
    rw [← List.length_pos, hvotes2len]
    exact hm0
  · rw [hmN, hmv, hvotes2len]
  · rw [hmC, hmn, List.length_map, hsortlen]
  · rw [hmC]
    exact hn1
  · rw [show (maintain votes names).N_candidates = n from hmC, hmv]
    exact hvotes2rect
  · rw [hmc, hmC, List.length_map, hsortlen]
  · rw [hmn]
    exact hnamesperm.nodup_iff.mpr hnd
  · rw [hmn]
    exact hnamesperm
  · have hdouble : p3zip (maintain votes names).votes =
        sorted.map fun t => t.2.1 := by
      rw [hmv]
      exact p3zip_p3zip hcolsne hm0 hcolsrect
    have hzip : (maintain votes names).counts.zip
        ((p3zip (maintain votes names).votes).zip (maintain votes names).names) =
          sorted := by
      rw [hmc, hdouble, hmn, List.zip_map', List.zip_map']
      have hid : (fun (x : Triple) => (x.1, (x.2.1, x.2.2))) =
          fun (x : Triple) => x := rfl
      rw [hid, List.map_id']
    rw [hzip]
    exact List.sorted_insertionSort tripleLE triples

theorem voteTable_ok {votes : List Ballot} {names : List String}
    (h : ValidInput votes names) :
    TableOK (voteTable votes names) ∧
    List.Perm (voteTable votes names).names names := by
  obtain ⟨hv, hn, hrect, hnd, _⟩ := h
  obtain ⟨h1, h2, _⟩ := maintain_props hv hn hrect hnd
  exact ⟨h1, h2⟩

theorem tableOK_names_ne {t : VoteTable} (ht : TableOK t) : t.names ≠ [] := by
  rw [← List.length_pos]
  rw [← ht.ncand]
  exact ht.ncand_pos

theorem copy_props {t : VoteTable} (ht : TableOK t) :
    TableOK t.copy ∧ List.Perm t.copy.names t.names ∧
    t.copy.N_votes = t.N_votes ∧ t.copy.N_candidates = t.N_candidates := by
  have hrect : Rect t.votes t.names.length := by
    rw [← ht.ncand]
    exact ht.rect
  obtain ⟨h1, h2, _⟩ :=
    maintain_props ht.votes_ne (tableOK_names_ne ht) hrect ht.nodup
  refine ⟨h1, h2, ?_, ?_⟩
  · show t.votes.length = t.N_votes
    exact ht.nvotes.symm
  · show t.names.length = t.N_candidates
    exact ht.ncand.symm

theorem elim_props {t : VoteTable} (ht : TableOK t) {i : Nat}
    (hi : i < t.N_candidates) (h2 : 2 ≤ t.N_candidates) :
    TableOK (t.with_candidate_eliminated i) ∧
    List.Perm (t.with_candidate_eliminated i).names (t.names.eraseIdx i) ∧
    (t.with_candidate_eliminated i).N_candidates = t.N_candidates - 1 ∧
    (t.with_candidate_eliminated i).N_votes = t.N_votes := by
  have hminlen : minLen t.votes = t.N_candidates := minLen_eq ht.votes_ne ht.rect
  have hcolslen : (p3zip t.votes).length = t.N_candidates := by
    rw [length_p3zip ht.votes_ne, hminlen]
  have hcolsrect : Rect (p3zip t.votes) t.votes.length := rect_p3zip
  have hslice : (p3zip t.votes).take i ++ (p3zip t.votes).drop (i + 1) =
      (p3zip t.votes).eraseIdx i := (List.eraseIdx_eq_take_drop_succ _ i).symm
  have hnslice : t.names.take i ++ t.names.drop (i + 1) = t.names.eraseIdx i :=
    (List.eraseIdx_eq_take_drop_succ _ i).symm
  have hcols'len : ((p3zip t.votes).eraseIdx i).length = t.N_candidates - 1 := by
    rw [List.length_eraseIdx_of_lt (by rw [hcolslen]; exact hi), hcolslen]
  have hcols'rect : Rect ((p3zip t.votes).eraseIdx i) t.votes.length :=
    fun c hc => hcolsrect c ((List.eraseIdx_sublist _ i).subset hc)
  have hcols'ne : (p3zip t.votes).eraseIdx i ≠ [] := by
    rw [← List.length_pos, hcols'len]
    omega
  have hnames'len : (t.names.eraseIdx i).length = t.N_candidates - 1 := by
    rw [List.length_eraseIdx_of_lt (by rw [← ht.ncand]; exact hi), ← ht.ncand]
  have hv'len : (p3zip ((p3zip t.votes).eraseIdx i)).length = t.votes.length := by
    rw [length_p3zip hcols'ne, minLen_eq hcols'ne hcols'rect]
  have hv'ne : p3zip ((p3zip t.votes).eraseIdx i) ≠ [] := by
    rw [← List.length_pos, hv'len, List.length_pos]
    exact ht.votes_ne
  have hv'rect : Rect (p3zip ((p3zip t.votes).eraseIdx i))
      (t.names.eraseIdx i).length := by
    rw [hnames'len]
    have h0 := rect_p3zip (l := (p3zip t.votes).eraseIdx i)
    rw [hcols'len] at h0
    exact h0
  have hnames'ne : t.names.eraseIdx i ≠ [] := by
    rw [← List.length_pos, hnames'len]
    omega
  have hnames'nd : (t.names.eraseIdx i).Nodup := ht.nodup.eraseIdx i
  have helim : t.with_candidate_eliminated i =
      maintain (p3zip ((p3zip t.votes).eraseIdx i)) (t.names.eraseIdx i) := by
    show maintain
        (p3zip (List.take i (p3zip t.votes) ++ List.drop (i + 1) (p3zip t.votes)))
        (List.take i t.names ++ List.drop (i + 1) t.names) =
      maintain (p3zip ((p3zip t.votes).eraseIdx i)) (t.names.eraseIdx i)
    rw [hslice, hnslice]
  obtain ⟨h1, h2, _⟩ := maintain_props hv'ne hnames'ne hv'rect hnames'nd
  rw [helim]
  refine ⟨h1, h2, ?_, ?_⟩
  · show (t.names.eraseIdx i).length = t.N_candidates - 1
    exact hnames'len
  · show (p3zip ((p3zip t.votes).eraseIdx i)).length = t.N_votes
    rw [hv'len, ht.nvotes]

theorem compute_winner_getLast {t : VoteTable} {w : String}
    (h : t.compute_winner = some w) : t.names.getLast? = some w := by
  unfold VoteTable.compute_winner at h
  split at h
  · exact h
  · cases h

theorem compute_winner_mem {t : VoteTable} {w : String}
    (h : t.compute_winner = some w) : w ∈ t.names :=
  List.mem_of_getLast?_eq_some (compute_winner_getLast h)

theorem check_tied_isSome {t : VoteTable} (ht : TableOK t)
    (h2 : 2 ≤ t.N_candidates) : ∃ b, t.check_tied = some b := by
  have hlen : 2 ≤ t.counts.reverse.length := by
    rw [List.length_reverse, ht.counts_len]
    exact h2
  unfold VoteTable.check_tied
  rcases hr : t.counts.reverse with _ | ⟨c1, tl⟩
  · rw [hr] at hlen
    simp at hlen
  · rcases tl with _ | ⟨c2, tl2⟩
    · rw [hr] at hlen
      simp at hlen
    · exact ⟨_, rfl⟩

theorem resolveRound_some {choose : VoteTable → Nat} (hch : ChooseOK choose) :
    ∀ fuel t, TableOK t → t.N_candidates ≤ fuel →
      ∃ tr w inel, resolveRound choose fuel t = some (tr, w, inel) ∧
        w ∈ t.names := by
  intro fuel
  induction fuel with
  | zero =>
    intro t ht hf
    have := ht.ncand_pos
    omega
  | succ fuel ih =>
    intro t ht hf
    rcases hw : t.compute_winner with _ | w
    · by_cases h1 : t.N_candidates = 1
      · have hlen1 : t.names.length = 1 := by rw [← ht.ncand]; exact h1
        obtain ⟨u, hu⟩ := List.length_eq_one.mp hlen1
        refine ⟨t, u, true, ?_, by rw [hu]; exact List.mem_singleton_self u⟩
        simp [resolveRound, hw, h1, hu]
      · have h2 : 2 ≤ t.N_candidates := by
          have := ht.ncand_pos
          omega
        obtain ⟨b, hb⟩ := check_tied_isSome ht h2
        have hlt : (if b then choose t else 0) < t.N_candidates := by
          cases b with
          | true => simpa using hch t ht h2
          | false =>
            simp only [if_neg Bool.false_ne_true]
            omega
        obtain ⟨hte, heperm, heNc, _⟩ := elim_props ht hlt h2
        obtain ⟨tr, w, inel, hrec, hmem⟩ :=
          ih (t.with_candidate_eliminated (if b then choose t else 0)) hte
            (by rw [heNc]; omega)
        refine ⟨tr, w, inel, ?_, ?_⟩
        · simp only [resolveRound, hw, if_neg h1, hb]
          exact hrec
        · have hw1 : w ∈ t.names.eraseIdx (if b then choose t else 0) :=
            heperm.mem_iff.mp hmem
          exact (List.eraseIdx_sublist _ _).subset hw1
    · refine ⟨t, w, false, ?_, compute_winner_mem hw⟩
      simp [resolveRound, hw]

theorem irvRounds_props {choose : VoteTable → Nat} (hch : ChooseOK choose)
    (fuel : Nat) :
    ∀ k t, TableOK t → t.N_candidates = k → k ≤ fuel →
      ∃ rk il, irvRounds choose fuel k t = some (rk, il) ∧
        List.Perm (rk ++ il) t.names := by
  intro k
  induction k with
  | zero =>
    intro t ht hk _
    have := ht.ncand_pos
    omega
  | succ k ih =>
    intro t ht hk hf
    obtain ⟨tr, w, inel, hres, hmem⟩ :=
      resolveRound_some hch fuel t ht (by omega)
    by_cases hk0 : k = 0
    · subst hk0
      have hlen1 : t.names.length = 1 := by
        rw [← ht.ncand, hk]
      obtain ⟨u, hu⟩ := List.length_eq_one.mp hlen1
      have hwu : w = u := by
        rw [hu] at hmem
        simpa using hmem
      refine ⟨if inel then [] else [w], if inel then [w] else [], ?_, ?_⟩
      · cases inel <;> simp [irvRounds, hres]
      · cases inel <;> simp [hu, hwu]
    · have hk2 : 2 ≤ t.N_candidates := by omega
      obtain ⟨htc, hcperm, hcNv, hcNc⟩ := copy_props ht
      have hwmem_c : w ∈ t.copy.names := hcperm.mem_iff.mpr hmem
      have hidx : t.copy.names.indexOf w < t.copy.N_candidates := by
        rw [htc.ncand]
        exact List.indexOf_lt_length.mpr hwmem_c
      obtain ⟨hte, heperm, heNc, heNv⟩ :=
        elim_props htc hidx (by rw [hcNc]; exact hk2)
      have ht'k :
          (t.copy.with_candidate_eliminated (t.copy.names.indexOf w)).N_candidates
            = k := by
        rw [heNc, hcNc, hk]
        omega
      obtain ⟨rk, il, hrec, hperm'⟩ :=
        ih (t.copy.with_candidate_eliminated (t.copy.names.indexOf w)) hte ht'k
          (by omega)
      refine ⟨if inel then rk else w :: rk, if inel then w :: il else il, ?_, ?_⟩
      · simp only [irvRounds, hres, if_neg hk0, hrec]
      · have hweq : List.Perm
            (t.copy.with_candidate_eliminated (t.copy.names.indexOf w)).names
            (t.names.erase w) := by
          refine heperm.trans ?_
          rw [List.eraseIdx_indexOf_eq_erase]
          exact hcperm.erase w
        have hcons : List.Perm (w :: (rk ++ il)) t.names := by
          refine List.Perm.symm ?_
          refine (List.perm_cons_erase hmem).trans ?_
          exact (List.Perm.cons w (hperm'.trans hweq).symm)
        cases inel with
        | false =>
          simp only [if_neg Bool.false_ne_true]
          exact hcons
        | true =>
          refine List.Perm.trans ?_ hcons
          simp only [if_pos rfl]
          exact List.perm_middle

theorem natSum_eq_zero : ∀ L : List Nat, L.sum = 0 ↔ ∀ x ∈ L, x = 0
  | [] => by simp
  | x :: xs => by
    simp only [List.sum_cons, List.mem_cons, Nat.add_eq_zero_iff]
    rw [natSum_eq_zero xs]
    constructor
    · rintro ⟨rfl, h⟩ y hy
      rcases hy with rfl | hy
      · rfl
      · exact h y hy
    · intro h
      exact ⟨h x (Or.inl rfl), fun y hy => h y (Or.inr hy)⟩

theorem check_tied_true_iff {t : VoteTable} (ht : TableOK t)
    (h2 : 2 ≤ t.N_candidates) :
    t.check_tied = some true ↔
      (t.counts.getLastD [] = t.counts.reverse.getD 1 [] ∧
        ¬ ∀ x ∈ t.counts.getLastD [], x = 0) := by
  have hlen : 2 ≤ t.counts.reverse.length := by
    rw [List.length_reverse, ht.counts_len]
    exact h2
  rcases hr : t.counts.reverse with _ | ⟨c1, tl⟩
  · rw [hr] at hlen
    simp at hlen
  rcases tl with _ | ⟨c2, tl2⟩
  · rw [hr] at hlen
    simp at hlen
  have hlast : t.counts.getLastD [] = c1 := by
    rw [List.getLastD_eq_getLast?, ← List.head?_reverse, hr]
    rfl
  have hsec : t.counts.reverse.getD 1 [] = c2 := by
    rw [hr]
    rfl
  unfold VoteTable.check_tied
  rw [hr, hlast]
  show some (decide (c1 = c2) && decide (0 < c1.sum)) = some true ↔
    c1 = (c1 :: c2 :: tl2).getD 1 [] ∧ ¬∀ x ∈ c1, x = 0
  show some (decide (c1 = c2) && decide (0 < c1.sum)) = some true ↔
    c1 = c2 ∧ ¬∀ x ∈ c1, x = 0
  simp only [Option.some.injEq, Bool.and_eq_true, decide_eq_true_eq]
  rw [← natSum_eq_zero c1]
  constructor
  · rintro ⟨hcc, hs⟩
    exact ⟨hcc, by omega⟩
  · rintro ⟨hcc, hs⟩
    exact ⟨hcc, by omega⟩

/-- One-step unfolding of `irvRounds` at a successor round count
(definitional). -/
theorem irvRounds_succ_eq (choose : VoteTable → Nat) (fuel k : Nat)
    (t : VoteTable) :
    irvRounds choose fuel (k + 1) t =
      match resolveRound choose fuel t with
      | none => none
      | some (_r, w, inel) =>
        match (if k = 0 then some (([], []) : List String × List String)
          else irvRounds choose fuel k
            (t.copy.with_candidate_eliminated (t.copy.names.indexOf w))) with
        | none => none
        | some (rk, il) =>
          some (if inel then rk else w :: rk, if inel then w :: il else il) :=
  rfl

/-- C1: for every table built from at least one ballot (and at least one
candidate), `compute_winner` returns the strongest candidate — the last name
in sorted order — iff twice its rank-1 count strictly exceeds the total
ballot count `N_votes` (which counts all ballots, abstaining or not, being
`len(self.votes)`); otherwise, including at exactly half, it returns `none`.
Python-2 floor division `c > n/2` coincides with `2*c > n`. -/
theorem C1_majority_winner (votes : List Ballot) (names : List String)
    (h : ValidInput votes names) :
    (voteTable votes names).N_votes = votes.length ∧
    (∀ w, (voteTable votes names).compute_winner = some w ↔
      ((voteTable votes names).names.getLast? = some w ∧
        (voteTable votes names).N_votes <
          2 * (((voteTable votes names).counts.getLastD []).headD 0))) ∧
    ((voteTable votes names).compute_winner = none ↔
      2 * (((voteTable votes names).counts.getLastD []).headD 0) ≤
        (voteTable votes names).N_votes) := by
  obtain ⟨ht, -⟩ := voteTable_ok h
  have hne : (voteTable votes names).names ≠ [] := tableOK_names_ne ht
  have hdiv : ∀ n c : Nat, (n / 2 < c ↔ n < 2 * c) := by
    intro n c
    rw [Nat.div_lt_iff_lt_mul (by omega : 0 < 2)]
    omega
  refine ⟨rfl, ?_, ?_⟩
  · intro w
    unfold VoteTable.compute_winner
    split
    · rename_i hcond
      constructor
      · intro hg
        exact ⟨hg, (hdiv _ _).mp hcond⟩
      · intro hg
        exact hg.1
    · rename_i hcond
      constructor
      · intro habs
        cases habs
      · rintro ⟨-, hlt⟩
        exact absurd ((hdiv _ _).mpr hlt) hcond
  · unfold VoteTable.compute_winner
    split
    · rename_i hcond
      rcases hg : (voteTable votes names).names.getLast? with _ | u
      · exact absurd (List.getLast?_eq_none_iff.mp hg) hne
      · constructor
        · intro habs
          cases habs
        · intro hle
          have := (hdiv _ _).mp hcond
          omega
    · rename_i hcond
      rw [hdiv] at hcond
      constructor
      · intro _
        omega
      · intro _
        rfl

/-- C1 witness: three ballots, one candidate with two first-place votes;
`2 * 2 > 3`, so the winner is returned. -/
theorem C1_majority_winner_witness :
    (voteTable [[some 1], [some 1], [none]] ["A"]).compute_winner = some "A" := by
  have h := C1_majority_winner [[some 1], [some 1], [none]] ["A"] (by decide)
  exact (h.2.1 "A").mpr (by decide)

/-- C2: round independence.  First conjunct (every automated run): once the
inner loop of a round resolves to `(reduced table, winner, flag)`, the rest
of the run continues on `table.copy()` — the pre-round snapshot — with the
winner eliminated from IT; the reduced table `tr` the inner loop ended on is
discarded (the equation's right-hand side does not mention `tr`).  Second
conjunct (concrete contrast at `exC2`): the round-0 inner loop ends on a
reduced table whose candidates are `["B", "A"]` — "C" was eliminated while
finding the winner "A" — yet the table for rank 2 is built from the
snapshot and contains "C" again. -/
theorem C2_round_independence :
    (∀ (choose : VoteTable → Nat) (fuel k : Nat) (t tr : VoteTable)
      (w : String) (inel : Bool),
      resolveRound choose fuel t = some (tr, w, inel) →
      irvRounds choose fuel (k + 2) t =
        (irvRounds choose fuel (k + 1)
          (t.copy.with_candidate_eliminated (t.copy.names.indexOf w))).map
          (fun p =>
            (if inel then p.1 else w :: p.1, if inel then w :: p.2 else p.2))) ∧
    ((resolveRound (fun _ => 0) 3 exC2).map (fun p => (p.1.names, p.2)) =
      some (["B", "A"], ("A", false)) ∧
      "C" ∉ (["B", "A"] : List String) ∧
      (exC2.copy.with_candidate_eliminated (exC2.copy.names.indexOf "A")).names =
        ["C", "B"] ∧
      "C" ∈ (["C", "B"] : List String)) := by
  constructor
  · intro choose fuel k t tr w inel hres
    show irvRounds choose fuel (k + 1 + 1) t = _
    rw [irvRounds_succ_eq choose fuel (k + 1) t, hres]
    show (match (if k + 1 = 0 then some (([], []) : List String × List String)
        else irvRounds choose fuel (k + 1)
          (t.copy.with_candidate_eliminated (t.copy.names.indexOf w))) with
      | none => none
      | some (rk, il) =>
        some (if inel then rk else w :: rk, if inel then w :: il else il)) = _
    rw [if_neg (Nat.succ_ne_zero k)]
    rcases hc : irvRounds choose fuel (k + 1)
        (t.copy.with_candidate_eliminated (t.copy.names.indexOf w)) with
      _ | ⟨rk, il⟩
    · rfl
    · rfl
  · refine ⟨by decide, by decide, by decide, by decide⟩

/-- C2 witness: the structural equation instantiated at `exC2` for the
two-rounds-remaining case, with the round-0 result `("A", not ineligible)`
obtained by computation. -/
theorem C2_round_independence_witness :
    irvRounds (fun _ => 0) 3 2 exC2 =
      (irvRounds (fun _ => 0) 3 1
        (exC2.copy.with_candidate_eliminated (exC2.copy.names.indexOf "A"))).map
        (fun p => ("A" :: p.1, p.2)) := by
  have h := C2_round_independence.1 (fun _ => 0) 3 0 exC2
    (exC2.with_candidate_eliminated 0) "A" false (by decide)
  simpa using h

/-- C3 counterexample: two ballots, candidates named "B" and "A" with
identical count vectors `[1, 1]` but different ballot columns.  The source
breaks the tie on the ballot columns (Python compares the second tuple
component before the name), leaving "B" before "A" — not by candidate name
ascending as the claim states, which would put "A" first. -/
theorem C3_sorted_invariant_counterexample :
    (voteTable [[some 1, some 2], [some 2, some 1]] ["B", "A"]).counts =
      [[1, 1], [1, 1]] ∧
    (voteTable [[some 1, some 2], [some 2, some 1]] ["B", "A"]).names =
      ["B", "A"] ∧
    ¬ countsNameSorted (voteTable [[some 1, some 2], [some 2, some 1]] ["B", "A"]) := by
  refine ⟨by decide, by decide, by decide⟩

/-- C3 amended: after construction (and hence after every rebuild, which
reruns the same code), the candidate names, ballot columns and count vectors
are jointly ordered by ascending lexicographic comparison of the
(count vector, ballot column, name) triple — Python compares the ballot
column before the name when count vectors tie.  The order is a function of
the ballots and names (the sort comparator reflects equality, so the sorted
permutation is unique). -/
theorem C3_sorted_invariant_amended (votes : List Ballot) (names : List String)
    (h : ValidInput votes names) :
    List.Pairwise tripleLE
      ((voteTable votes names).counts.zip
        ((p3zip (voteTable votes names).votes).zip
          (voteTable votes names).names)) := by
  obtain ⟨hv, hn, hrect, hnd, -⟩ := h
  exact (maintain_props hv hn hrect hnd).2.2

/-- C3 witness: the amended invariant at the counterexample table. -/
theorem C3_sorted_invariant_witness :
    List.Pairwise tripleLE
      ((voteTable [[some 1, some 2], [some 2, some 1]] ["B", "A"]).counts.zip
        ((p3zip (voteTable [[some 1, some 2], [some 2, some 1]] ["B", "A"]).votes).zip
          (voteTable [[some 1, some 2], [some 2, some 1]] ["B", "A"]).names)) :=
  C3_sorted_invariant_amended [[some 1, some 2], [some 2, some 1]] ["B", "A"]
    (by decide)

/-- C4 counterexample: in `exC4` there is no majority winner, at least three
candidates remain, and the two weakest-by-count candidates have identical
nonzero count vectors — an unbreakable tie among the weakest in the claim's
sense — yet `check_tied` reports `False`, because the source compares
`counts[-1]` with `counts[-2]`: the two STRONGEST candidates, not the two
weakest.  The automated engine therefore eliminates index 0
deterministically instead of deferring to an external choice. -/
theorem C4_elimination_policy_counterexample :
    exC4.compute_winner = none ∧ 3 ≤ exC4.N_candidates ∧
    exC4.counts.getD 0 [] = exC4.counts.getD 1 [] ∧
    (exC4.counts.getD 0 []).sum ≠ 0 ∧
    exC4.check_tied = some false ∧
    resolveRound (fun _ => 0) 3 exC4 = resolveRound (fun _ => 1) 3 exC4 := by
  refine ⟨by decide, by decide, by decide, by decide, by decide, by decide⟩

/-- C4 amended: whenever no candidate holds a majority and the table does
not have exactly one candidate, the automated engine tests whether the two
STRONGEST-by-count candidates are tied using `check_tied`; if they are not,
it eliminates the single weakest candidate, index 0 of the sorted order,
regardless of the external choice function; only when `check_tied` is true
does it eliminate the externally chosen index. -/
theorem C4_elimination_policy_amended (choose : VoteTable → Nat) (fuel : Nat)
    (t : VoteTable) (hw : t.compute_winner = none)
    (h1 : t.N_candidates ≠ 1) :
    (t.check_tied = some false →
      resolveRound choose (fuel + 1) t =
        resolveRound choose fuel (t.with_candidate_eliminated 0)) ∧
    (t.check_tied = some true →
      resolveRound choose (fuel + 1) t =
        resolveRound choose fuel (t.with_candidate_eliminated (choose t))) ∧
    (TableOK t → 2 ≤ t.N_candidates →
      (t.check_tied = some true ↔
        (t.counts.getLastD [] = t.counts.reverse.getD 1 [] ∧
          ¬∀ x ∈ t.counts.getLastD [], x = 0))) := by
  refine ⟨?_, ?_, fun ht h2 => check_tied_true_iff ht h2⟩
  · intro hct
    simp [resolveRound, hw, if_neg h1, hct]
  · intro hct
    simp [resolveRound, hw, if_neg h1, hct]

/-- C4 witness: on `exC4` (untied per `check_tied`), one engine step
eliminates index 0. -/
theorem C4_elimination_policy_witness :
    resolveRound (fun _ => 7) 3 exC4 =
      resolveRound (fun _ => 7) 2 (exC4.with_candidate_eliminated 0) :=
  (C4_elimination_policy_amended (fun _ => 7) 2 exC4 (by decide) (by decide)).1
    (by decide)

/-- C5: on every well-formed table with at least two candidates,
`check_tied` succeeds, and is `True` iff the two strongest candidates (the
last two rows in sorted order, i.e. `counts[-1]` and `counts[-2]`) have
identical count vectors and that shared vector is not all zeros. -/
theorem C5_check_tied_iff (t : VoteTable) (ht : TableOK t)
    (h2 : 2 ≤ t.N_candidates) :
    (∃ b, t.check_tied = some b) ∧
    (t.check_tied = some true ↔
      (t.counts.getLastD [] = t.counts.reverse.getD 1 [] ∧
        ¬∀ x ∈ t.counts.getLastD [], x = 0)) :=
  ⟨check_tied_isSome ht h2, check_tied_true_iff ht h2⟩

/-- C5 witness: a two-candidate table tied 1-1 with nonzero counts. -/
theorem C5_check_tied_iff_witness :
    (voteTable [[some 1, some 2], [some 2, some 1]] ["A", "B"]).check_tied =
      some true := by
  have h := C5_check_tied_iff (voteTable [[some 1, some 2], [some 2, some 1]] ["A", "B"])
    (voteTable_ok (by decide)).1 (by decide)
  exact h.2.mpr (by decide)

/-- C6: rank normalization.  For every ballot: the length is unchanged; the
non-abstaining slots hold exactly the ranks `1..k` (as a permutation), where
`k` is the number of non-abstaining entries; abstaining slots remain
abstentions and only they; and the relative order of the original ranks is
preserved (a strictly smaller original rank is assigned a strictly smaller
normalized rank). -/
theorem C6_rank_normalize (l : Ballot) :
    (get_rank_order l).length = l.length ∧
    ((get_rank_order l).filterMap id).Perm
      ((List.range ((l.filterMap id).length)).map fun p => p + 1) ∧
    (∀ j, j < l.length →
      ((get_rank_order l)[j]? = some none ↔ l[j]? = some none)) ∧
    (∀ (i j vi vj : Nat), l[i]? = some (some vi) → l[j]? = some (some vj) →
      vi < vj →
      ∃ ri rj, (get_rank_order l)[i]? = some (some ri) ∧
        (get_rank_order l)[j]? = some (some rj) ∧ ri < rj) := by
  refine ⟨length_get_rank_order l, get_rank_order_ranks_perm l, ?_, ?_⟩
  · intro j hj
    exact get_rank_order_none_iff hj
  · intro i j vi vj hi hj hlt
    exact get_rank_order_order_preserving hi hj hlt

/-- C6 witness: `[5, None, 1]` normalizes to `[2, None, 1]`; instantiating
the theorem yields the preserved length and the rank permutation 1..2. -/
theorem C6_rank_normalize_witness :
    (get_rank_order [some 5, none, some 1]).length = 3 ∧
    ((get_rank_order [some 5, none, some 1]).filterMap id).Perm [1, 2] := by
  have h := C6_rank_normalize [some 5, none, some 1]
  exact ⟨h.1, h.2.1⟩

/-- C7 counterexample: eliminating candidate "A" (index 0) does NOT preserve
the surviving candidates' relative order by name: "B" precedes "C" before
the elimination and follows it afterwards, because the new table is fully
rebuilt and re-sorted by the new count vectors. -/
theorem C7_elimination_counterexample :
    exC7.names.getD 0 "" = "A" ∧
    "B" ∈ exC7.names ∧ "C" ∈ exC7.names ∧
    exC7.names.indexOf "B" < exC7.names.indexOf "C" ∧
    "B" ∈ (exC7.with_candidate_eliminated 0).names ∧
    "C" ∈ (exC7.with_candidate_eliminated 0).names ∧
    (exC7.with_candidate_eliminated 0).names.indexOf "C" <
      (exC7.with_candidate_eliminated 0).names.indexOf "B" := by
  refine ⟨by decide, by decide, by decide, by decide, by decide, by decide,
    by decide⟩

/-- C7 amended: for every well-formed table with at least two candidates and
a valid index, elimination returns a fully rebuilt table with exactly one
fewer candidate, the same number of ballots, every ballot exactly one entry
shorter, and the surviving candidate names are exactly the original ones
minus the eliminated one (as a multiset, by name); the receiver is a value
and is not modified.  The candidate-list order of the survivors is
re-derived by the strength sort and need not be preserved. -/
theorem C7_elimination_amended (t : VoteTable) (ht : TableOK t) (i : Nat)
    (hi : i < t.N_candidates) (h2 : 2 ≤ t.N_candidates) :
    (t.with_candidate_eliminated i).names.length = t.N_candidates - 1 ∧
    (t.with_candidate_eliminated i).votes.length = t.N_votes ∧
    (∀ r ∈ (t.with_candidate_eliminated i).votes,
      r.length = t.N_candidates - 1) ∧
    List.Perm (t.with_candidate_eliminated i).names (t.names.eraseIdx i) := by
  obtain ⟨hte, hperm, hNc, hNv⟩ := elim_props ht hi h2
  refine ⟨?_, ?_, ?_, hperm⟩
  · rw [← hte.ncand, hNc]
  · rw [← hte.nvotes, hNv]
  · intro r hr
    rw [← hNc]
    exact hte.rect r hr

/-- C7 witness: the amended facts at `exC7` with index 0: two candidates and
nine two-entry ballots remain. -/
theorem C7_elimination_witness :
    (exC7.with_candidate_eliminated 0).names.length = 2 ∧
    (exC7.with_candidate_eliminated 0).votes.length = 9 := by
  have h := C7_elimination_amended exC7 (voteTable_ok (by decide)).1 0
    (by decide) (by decide)
  exact ⟨h.1, h.2.1⟩

/-- C8: on valid input, the automated run returns a ranking and an
ineligible list that are disjoint; the ranking has at most `N` entries; and
together the two lists are a permutation of the candidate names — every
candidate appears exactly once across the two lists. -/
theorem C8_partition (choose : VoteTable → Nat) (votes : List Ballot)
    (names : List String) (hch : ChooseOK choose) (h : ValidInput votes names) :
    ∃ rk il, instant_runoff choose (voteTable votes names) = some (rk, il) ∧
      rk.Disjoint il ∧ rk.length ≤ names.length ∧
      List.Perm (rk ++ il) names := by
  obtain ⟨ht, hperm⟩ := voteTable_ok h
  obtain ⟨rk, il, heq, hp⟩ :=
    irvRounds_props hch (voteTable votes names).N_candidates
      (voteTable votes names).N_candidates (voteTable votes names) ht rfl
      (Nat.le_refl _)
  have hpn : List.Perm (rk ++ il) names := hp.trans hperm
  have hnd : (rk ++ il).Nodup := hpn.nodup_iff.mpr h.2.2.2.1
  refine ⟨rk, il, heq, List.disjoint_of_nodup_append hnd, ?_, hpn⟩
  have h1 := hpn.length_eq
  rw [List.length_append] at h1
  omega

/-- C8 witness: on the three-candidate contest the partition facts hold
concretely (the run returns some result). -/
theorem C8_partition_witness :
    (instant_runoff (fun _ => 0)
      (voteTable
        [[some 1, some 2, some 3], [some 1, some 2, some 3],
         [some 2, some 1, some 3], [some 2, some 1, some 3],
         [some 2, some 3, some 1]]
        ["B", "A", "C"])).isSome := by
  obtain ⟨rk, il, heq, -⟩ := C8_partition (fun _ => 0)
    [[some 1, some 2, some 3], [some 1, some 2, some 3],
     [some 2, some 1, some 3], [some 2, some 1, some 3],
     [some 2, some 3, some 1]]
    ["B", "A", "C"] (fun t _ h2 => by show 0 < t.N_candidates; omega) (by decide)
  simp [heq]

/-- C9 counterexample: the one-ballot, one-candidate input is valid in the
claim's sense (at least one ballot, at least one candidate, aligned, no
duplicate ranks), yet `check_tied` fails: `self.counts[-2]` raises
`IndexError` on a single-row count table (modelled as `none`). -/
theorem C9_no_exception_counterexample :
    ValidInput [[some 1]] ["A"] ∧
    (voteTable [[some 1]] ["A"]).check_tied = none := by
  refine ⟨by decide, by decide⟩

/-- C9 amended: on valid input, construction and rebuild produce a
well-formed table; `check_tied` completes whenever at least TWO candidates
remain (on a one-candidate table it raises); elimination of a valid index
again yields a well-formed table; and the automated `instant_runoff` loop —
which consults `check_tied` only when at least two candidates remain —
completes without failure (given that the external tie choice, when
consulted, names an actual candidate).  `compute_winner` and
`with_candidate_eliminated` are total as modelled. -/
theorem C9_no_exception_amended :
    (∀ votes names, ValidInput votes names → TableOK (voteTable votes names)) ∧
    (∀ t : VoteTable, TableOK t → 2 ≤ t.N_candidates → t.check_tied.isSome) ∧
    (∀ (t : VoteTable) (i : Nat), TableOK t → i < t.N_candidates →
      2 ≤ t.N_candidates → TableOK (t.with_candidate_eliminated i)) ∧
    (∀ (choose : VoteTable → Nat) votes names, ChooseOK choose →
      ValidInput votes names →
      (instant_runoff choose (voteTable votes names)).isSome) := by
  refine ⟨?_, ?_, ?_, ?_⟩
  · intro votes names h
    exact (voteTable_ok h).1
  · intro t ht h2
    obtain ⟨b, hb⟩ := check_tied_isSome ht h2
    simp [hb]
  · intro t i ht hi h2
    exact (elim_props ht hi h2).1
  · intro choose votes names hch h
    obtain ⟨ht, -⟩ := voteTable_ok h
    obtain ⟨rk, il, heq, -⟩ :=
      irvRounds_props hch (voteTable votes names).N_candidates
        (voteTable votes names).N_candidates (voteTable votes names) ht rfl
        (Nat.le_refl _)
    unfold instant_runoff
    simp [heq]

/-- C9 witness: the loop completes on a two-candidate tied contest (which
exercises the tie branch with the index-0 choice). -/
theorem C9_no_exception_witness :
    (instant_runoff (fun _ => 0)
      (voteTable [[some 1, some 2], [some 2, some 1]] ["A", "B"])).isSome :=
  C9_no_exception_amended.2.2.2 (fun _ => 0)
    [[some 1, some 2], [some 2, some 1]] ["A", "B"]
    (fun t _ h2 => by show 0 < t.N_candidates; omega) (by decide)

/-- C10: on valid input with a valid external tie choice, the automated
computation completes — the recursion budget `N_candidates` per round over
exactly `N_candidates` rounds (the literal structure of `instant_runoff`)
suffices, i.e. at most `N` rounds with at most `N` inner-loop iterations
(hence at most `N` eliminations) per round — and produces exactly one entry
(ranked or ineligible) per candidate.  The run is a pure function of the
table and the tie choice, hence deterministic. -/
theorem C10_termination (choose : VoteTable → Nat) (votes : List Ballot)
    (names : List String) (hch : ChooseOK choose) (h : ValidInput votes names) :
    ∃ rk il, instant_runoff choose (voteTable votes names) = some (rk, il) ∧
      rk.length + il.length = names.length := by
  obtain ⟨ht, hperm⟩ := voteTable_ok h
  obtain ⟨rk, il, heq, hp⟩ :=
    irvRounds_props hch (voteTable votes names).N_candidates
      (voteTable votes names).N_candidates (voteTable votes names) ht rfl
      (Nat.le_refl _)
  refine ⟨rk, il, heq, ?_⟩
  have h1 := hp.length_eq
  rw [List.length_append] at h1
  rw [h1, hperm.length_eq]

/-- C10 witness: the three-candidate contest runs to completion. -/
theorem C10_termination_witness :
    (instant_runoff (fun _ => 0)
      (voteTable
        [[some 1, some 2, some 3], [some 1, some 2, some 3],
         [some 2, some 1, some 3], [some 2, some 1, some 3],
         [some 2, some 3, some 1]]
        ["A", "B", "C"])).isSome := by
  obtain ⟨rk, il, heq, -⟩ := C10_termination (fun _ => 0)
    [[some 1, some 2, some 3], [some 1, some 2, some 3],
     [some 2, some 1, some 3], [some 2, some 1, some 3],
     [some 2, some 3, some 1]]
    ["A", "B", "C"] (fun t _ h2 => by show 0 < t.N_candidates; omega) (by decide)
  simp [heq]

end IRV
